import Mathlib

/-!
Verification of the two utilities in this repository:
`scripts/test-bpmn-combined.py` (schema combination and `$ref` rewriting)
and `scripts/test-bpmn-json.py` (structural validation of BPMN-JSON
documents).  JSON values are embedded as a mutual inductive so that every
operation below is a structurally recursive, kernel-computable function.
-/

set_option autoImplicit false

mutual

/-- A parsed JSON value, as produced by Python's `json.load`: `None`,
booleans, numbers (only integers occur in this repository's data; floats
are out of scope), strings, arrays and objects.  Objects are association
lists in insertion order, mirroring Python's ordered `dict`. -/
inductive Json where
  | null
  | bool (b : Bool)
  | num (n : Int)
  | str (s : String)
  | arr (items : JsonArr)
  | obj (fields : JsonObj)
deriving DecidableEq

inductive JsonArr where
  | nil
  | cons (head : Json) (tail : JsonArr)
deriving DecidableEq

inductive JsonObj where
  | nil
  | cons (key : String) (value : Json) (tail : JsonObj)
deriving DecidableEq

end

def JsonArr.toList : JsonArr → List Json
  | .nil => []
  | .cons x xs => x :: xs.toList

def JsonArr.ofList : List Json → JsonArr
  | [] => .nil
  | x :: xs => .cons x (JsonArr.ofList xs)

def JsonObj.toList : JsonObj → List (String × Json)
  | .nil => []
  | .cons k v kvs => (k, v) :: kvs.toList

def JsonObj.ofList : List (String × Json) → JsonObj
  | [] => .nil
  | (k, v) :: kvs => .cons k v (JsonObj.ofList kvs)

def JsonObj.keys : JsonObj → List String
  | .nil => []
  | .cons k _ kvs => k :: kvs.keys

/-- First binding of `key`, mirroring Python dict lookup (dict keys are
unique in Python, so "first" is exact). -/
def JsonObj.find : JsonObj → String → Option Json
  | .nil, _ => none
  | .cons k v kvs, key => if k = key then some v else kvs.find key

/-- `data[key]` / `key in data` for objects.  Python's `in` on a non-dict
value either crashes or tests something other than key membership; all
claims below only concern object-shaped values, so non-objects yield
`none`. -/
def Json.get : Json → String → Option Json
  | .obj o, key => o.find key
  | _, _ => none

/-- Python's `key in value` membership test (for objects). -/
def Json.hasKey (j : Json) (key : String) : Bool :=
  (j.get key).isSome

/-- Python's `value.get(key, default)`. -/
def Json.getD (j : Json) (key : String) (d : Json) : Json :=
  (j.get key).getD d

def Json.isStr : Json → Bool
  | .str _ => true
  | _ => false

/-- The carried string of a string value (only used under an `isStr`
guard, mirroring Python's `isinstance(value, str)` check). -/
def Json.asStr : Json → String
  | .str s => s
  | _ => ""

mutual

/-- Python `repr` of a parsed-JSON value, used by the validator's f-strings
when they interpolate a whole element (the `Event missing id` message
renders the raw element this way).  String escaping inside `repr` is not
modelled (no claim exercises it). -/
def pyRepr : Json → String
  | .null => "None"
  | .bool true => "True"
  | .bool false => "False"
  | .num n => toString n
  | .str s => "\x27" ++ s ++ "\x27"
  | .arr a => "[" ++ pyReprArr a ++ "]"
  | .obj o => "\x7b" ++ pyReprObj o ++ "\x7d"

def pyReprArr : JsonArr → String
  | .nil => ""
  | .cons x .nil => pyRepr x
  | .cons x xs => pyRepr x ++ ", " ++ pyReprArr xs

def pyReprObj : JsonObj → String
  | .nil => ""
  | .cons k v .nil => "\x27" ++ k ++ "\x27: " ++ pyRepr v
  | .cons k v kvs => "\x27" ++ k ++ "\x27: " ++ pyRepr v ++ ", " ++ pyReprObj kvs

end

/-- Python `str()` as used inside f-strings: a string formats to its own
contents, every other value formats like its `repr`. -/
def fmtVal : Json → String
  | .str s => s
  | v => pyRepr v

/-! ## StructuralValidator (`scripts/test-bpmn-json.py`, `check_bpmn_file`)

The Python routine loops over `elements['events']` etc.; iteration
presupposes a JSON array (a non-array there would crash or iterate
meaninglessly in Python), so `arrItems` yields `[]` both for an absent key
and for a non-array value, and the per-kind loop is skipped. -/

def arrItems : Option Json → List Json
  | some (Json.arr a) => a.toList
  | _ => []

/-- The ids accumulated by `all_ids.add(element['id'])`: one entry per
element that has an `id` key (Python adds the raw value, which need not be
a string, hence `List Json`). -/
def idsOfElems (es : List Json) : List Json :=
  es.filterMap (fun e => e.get "id")

def eventErrs : List Json → List String
  | [] => []
  | e :: rest =>
    (if e.hasKey "id" then [] else ["Event missing \x27id\x27: " ++ fmtVal e]) ++
    (if e.hasKey "type" then [] else
      ["Event " ++ fmtVal (e.getD "id" (Json.str "?")) ++ " missing \x27type\x27"]) ++
    (if e.get "type" = some (Json.str "boundaryEvent") ∧ ¬ e.hasKey "attachedToRef" then
      ["Boundary event " ++ fmtVal (e.getD "id" (Json.str "?")) ++ " missing \x27attachedToRef\x27"]
     else []) ++
    eventErrs rest

def activityErrs : List Json → List String
  | [] => []
  | a :: rest =>
    (if a.hasKey "id" then [] else ["Activity missing \x27id\x27: " ++ fmtVal a]) ++
    (if a.hasKey "name" then [] else
      ["Activity " ++ fmtVal (a.getD "id" (Json.str "?")) ++ " missing \x27name\x27"]) ++
    (if a.hasKey "type" then [] else
      ["Activity " ++ fmtVal (a.getD "id" (Json.str "?")) ++ " missing \x27type\x27"]) ++
    (match a.get "agent" with
     | some agent =>
       (if agent.hasKey "type" then [] else
         ["Activity " ++ fmtVal (a.getD "id" (Json.str "?")) ++ " agent missing \x27type\x27"]) ++
       (if agent.hasKey "strategy" then [] else
         ["Activity " ++ fmtVal (a.getD "id" (Json.str "?")) ++ " agent missing \x27strategy\x27"])
     | none => []) ++
    activityErrs rest

def gatewayErrs : List Json → List String
  | [] => []
  | g :: rest =>
    (if g.hasKey "id" then [] else ["Gateway missing \x27id\x27: " ++ fmtVal g]) ++
    (if g.hasKey "type" then [] else
      ["Gateway " ++ fmtVal (g.getD "id" (Json.str "?")) ++ " missing \x27type\x27"]) ++
    gatewayErrs rest

def flowErrs (ids : List Json) : List Json → List String
  | [] => []
  | f :: rest =>
    (if f.hasKey "id" then [] else ["Sequence flow missing \x27id\x27: " ++ fmtVal f]) ++
    (match f.get "sourceRef" with
     | none => ["Sequence flow " ++ fmtVal (f.getD "id" (Json.str "?")) ++ " missing \x27sourceRef\x27"]
     | some r =>
       if r ∈ ids then []
       else ["Sequence flow " ++ fmtVal (f.getD "id" (Json.str "?")) ++ " has invalid sourceRef: " ++ fmtVal r]) ++
    (match f.get "targetRef" with
     | none => ["Sequence flow " ++ fmtVal (f.getD "id" (Json.str "?")) ++ " missing \x27targetRef\x27"]
     | some r =>
       if r ∈ ids then []
       else ["Sequence flow " ++ fmtVal (f.getD "id" (Json.str "?")) ++ " has invalid targetRef: " ++ fmtVal r]) ++
    flowErrs ids rest

/-- `all_ids` after the three collection loops (events, then activities,
then gateways) have completed. -/
def collectAllIds (elements : Json) : List Json :=
  idsOfElems (arrItems (elements.get "events")) ++
  idsOfElems (arrItems (elements.get "activities")) ++
  idsOfElems (arrItems (elements.get "gateways"))

/-- Error list produced inside the `else` branch for `elements`: the three
per-kind loops run (collecting ids as a side effect), then the
`sequenceFlows` loop runs against the completed id set. -/
def elementsErrs (elements : Json) : List String :=
  eventErrs (arrItems (elements.get "events")) ++
  activityErrs (arrItems (elements.get "activities")) ++
  gatewayErrs (arrItems (elements.get "gateways")) ++
  flowErrs (collectAllIds elements) (arrItems (elements.get "sequenceFlows"))

/-- `check_bpmn_file` after a successful `json.load` (a parse failure
returns a single `Failed to load JSON` error and never reaches this
logic; no claim concerns that branch). -/
def check_bpmn_file (data : Json) : List String :=
  match data.get "process" with
  | none => ["Missing \x27process\x27 root element"]
  | some process =>
    (if process.hasKey "id" then [] else ["Process missing \x27id\x27 field"]) ++
    (if process.hasKey "name" then [] else ["Process missing \x27name\x27 field"]) ++
    (match process.get "elements" with
     | none => ["Process missing \x27elements\x27 field"]
     | some elements => elementsErrs elements)

/-- Convenience constructor for concrete documents. -/
def jobj (l : List (String × Json)) : Json :=
  Json.obj (JsonObj.ofList l)

/-- Convenience constructor for concrete arrays. -/
def jarr (l : List Json) : Json :=
  Json.arr (JsonArr.ofList l)

/-- The minimal valid document from the spec's testable properties. -/
def minimalDoc : Json :=
  jobj [("process", jobj
    [("id", Json.str "p1"),
     ("name", Json.str "P"),
     ("elements", jobj
       [("events", jarr [jobj [("id", Json.str "e1"), ("type", Json.str "startEvent")]]),
        ("activities", jarr [jobj [("id", Json.str "a1"), ("name", Json.str "Task"), ("type", Json.str "task")]]),
        ("sequenceFlows", jarr [jobj [("id", Json.str "f1"), ("sourceRef", Json.str "e1"), ("targetRef", Json.str "a1")]])])])]

/-! ## SchemaCombiner (`scripts/test-bpmn-combined.py`)

Python string primitives, over `List Char`.  `chSplitFirst` finds the
first (leftmost) occurrence of a nonempty separator and returns the part
before it and the part after it; Python's `s.split(sep)` is this applied
repeatedly, and `s.replace(old, "")` removes occurrences left to right,
non-overlapping.  `removeFuel` carries a fuel argument so the recursion is
structural (each step consumes at least one character, so fuel
`s.length` always suffices — `removeFuel_fuel_ge` below). -/

def chSplitFirst (sep : List Char) : List Char → Option (List Char × List Char)
  | [] => none
  | c :: cs =>
    if sep.isPrefixOf (c :: cs) then some ([], (c :: cs).drop sep.length)
    else (chSplitFirst sep cs).map (fun p => (c :: p.1, p.2))

def removeFuel (old : List Char) : Nat → List Char → List Char
  | _, [] => []
  | 0, s => s
  | fuel + 1, s =>
    match chSplitFirst old s with
    | none => s
    | some (a, b) => a ++ removeFuel old fuel b

/-- Python `s.replace(old, "")` (the script only ever replaces with the
empty string). -/
def pyRemoveL (old s : List Char) : List Char :=
  removeFuel old s.length s

/-- Python `parts = s.split(sep)` followed by `len(parts) == 2`: succeeds
with `(parts[0], parts[1])` exactly when `sep` occurs exactly once. -/
def pySplit2 (sep s : List Char) : Option (List Char × List Char) :=
  match chSplitFirst sep s with
  | none => none
  | some (a, b) =>
    match chSplitFirst sep b with
    | none => some (a, b)
    | some _ => none

def sepD : List Char := "#/definitions/".data

def bpmnD : List Char := "bpmn-".data

def extD : List Char := ".json".data

/-- The string-level `$ref` rewrite inside `update_refs`
(`test-bpmn-combined.py` lines 54-69): if the value starts with `bpmn-`
and splits in exactly two parts at `#/definitions/`, the part before it
has all `.json` occurrences removed, is compared against `bpmn-process`,
and otherwise additionally has all `bpmn-` occurrences removed to build
the prefix. -/
def rewriteRefStr (v : String) : String :=
  if bpmnD.isPrefixOf v.data then
    match pySplit2 sepD v.data with
    | some (p0, p1) =>
      let source_schema := pyRemoveL extD p0
      if source_schema = "bpmn-process".data then ⟨sepD ++ p1⟩
      else ⟨sepD ++ pyRemoveL bpmnD source_schema ++ "_".data ++ p1⟩
    | none => v
  else v

mutual

/-- `update_refs` (lines 50-76): rebuilds objects, rewriting the value of
a `$ref` key when that value is a string, recursing everywhere else; the
`schema_name` parameter is carried around but never used, as in the
source. -/
def update_refs : Json → String → Json
  | .obj kvs, schema_name => .obj (update_refsObj kvs schema_name)
  | .arr xs, schema_name => .arr (update_refsArr xs schema_name)
  | j, _ => j

def update_refsArr : JsonArr → String → JsonArr
  | .nil, _ => .nil
  | .cons x xs, schema_name => .cons (update_refs x schema_name) (update_refsArr xs schema_name)

def update_refsObj : JsonObj → String → JsonObj
  | .nil, _ => .nil
  | .cons k v kvs, schema_name =>
    if k = "$ref" ∧ v.isStr = true then
      .cons k (Json.str (rewriteRefStr v.asStr)) (update_refsObj kvs schema_name)
    else
      .cons k (update_refs v schema_name) (update_refsObj kvs schema_name)

end

mutual

/-- The ref-rewriting walk parameterised by the string transformation, to
state the specification's description of `update_refs` with a given
reading of the per-string rewrite rule. -/
def walkWith (f : String → String) : Json → Json
  | .obj kvs => .obj (walkWithObj f kvs)
  | .arr xs => .arr (walkWithArr f xs)
  | j => j

def walkWithArr (f : String → String) : JsonArr → JsonArr
  | .nil => .nil
  | .cons x xs => .cons (walkWith f x) (walkWithArr f xs)

def walkWithObj (f : String → String) : JsonObj → JsonObj
  | .nil => .nil
  | .cons k v kvs =>
    if k = "$ref" ∧ v.isStr = true then
      .cons k (Json.str (f v.asStr)) (walkWithObj f kvs)
    else
      .cons k (walkWith f v) (walkWithObj f kvs)

end

/-- The per-string rewrite as the spec describes it after amendment:
the value must contain `#/definitions/` exactly once, the part before it
must start with `bpmn-`, and the prefix is that part with every
occurrence of `.json` and then every occurrence of `bpmn-` removed
(left to right, non-overlapping); the base comparison is done after the
`.json` removal. -/
def specRewriteStr (v : String) : String :=
  match chSplitFirst sepD v.data with
  | some (file, name) =>
    if chSplitFirst sepD name = none ∧ bpmnD.isPrefixOf file then
      if pyRemoveL extD file = "bpmn-process".data then ⟨sepD ++ name⟩
      else ⟨sepD ++ pyRemoveL bpmnD (pyRemoveL extD file) ++ "_".data ++ name⟩
    else v
  | none => v

def stripLeadTok (tok l : List Char) : List Char :=
  if tok.isPrefixOf l then l.drop tok.length else l

def stripExtTok (ext l : List Char) : List Char :=
  if ext.isSuffixOf l then l.take (l.length - ext.length) else l

/-- The per-string rewrite exactly as claim C1 words it: the prefix is
`<file>` with the `.json` extension (a suffix) and the leading `bpmn-`
token (a prefix) removed. -/
def claimRewriteStr (v : String) : String :=
  match chSplitFirst sepD v.data with
  | some (file, name) =>
    if bpmnD.isPrefixOf file then
      if stripExtTok extD file = "bpmn-process".data then ⟨sepD ++ name⟩
      else ⟨sepD ++ stripLeadTok bpmnD (stripExtTok extD file) ++ "_".data ++ name⟩
    else v
  | none => v

/-- `prefix + def_name` key assignment of the merge loop
(`test-bpmn-combined.py` lines 38-45): definitions of the base document
keep their name, all others are prefixed with the document name minus
every `bpmn-` occurrence, followed by `_`. -/
def renKey (n d : String) : String :=
  if n = "bpmn-process" then d else (⟨pyRemoveL bpmnD n.data⟩ : String) ++ "_" ++ d

/-- The `(def_name, definition)` pairs contributed by one source document:
its `definitions` entries, in order.  A document without a `definitions`
key contributes nothing (`if 'definitions' in schema`); a non-object
`definitions` value would crash Python (`.items()`), and likewise
contributes nothing here — every claim below concerns documents whose
`definitions`, when present, is an object. -/
def defsOf (doc : Json) : List (String × Json) :=
  match doc.get "definitions" with
  | some (Json.obj o) => o.toList
  | _ => []

/-- All `(renamed key, definition)` pairs in iteration order: documents in
list order, then each document's definitions in order. -/
def mergedPairs : List (String × Json) → List (String × Json)
  | [] => []
  | (n, doc) :: rest => (defsOf doc).map (fun p => (renKey n p.1, p.2)) ++ mergedPairs rest

/-- Python `d[k] = v` on an ordered dict rendered as an association list:
an existing binding keeps its position and gets the new value, a new key
is appended. -/
def dictInsert : List (String × Json) → String → Json → List (String × Json)
  | [], k, v => [(k, v)]
  | (k', v') :: t, k, v => if k' = k then (k', v) :: t else (k', v') :: dictInsert t k v

/-- The `all_definitions` dict after the merge loop: every pair of
`mergedPairs` assigned in order into an initially empty dict. -/
def all_definitions (schemas : List (String × Json)) : List (String × Json) :=
  (mergedPairs schemas).foldl (fun acc p => dictInsert acc p.1 p.2) []

def alFind : List (String × Json) → String → Option Json
  | [], _ => none
  | (k, v) :: t, key => if k = key then some v else alFind t key

def objInsert : JsonObj → String → Json → JsonObj
  | .nil, k, v => .cons k v .nil
  | .cons k' v' t, k, v => if k' = k then .cons k' v t else .cons k' v' (objInsert t k v)

def objRemove : JsonObj → String → JsonObj
  | .nil, _ => .nil
  | .cons k v t, key => if k = key then t else .cons k v (objRemove t key)

/-- The combined document just before `update_refs` runs: a copy of the
`bpmn-process` schema whose `definitions` entry is replaced by the merged
map (lines 30 and 47).  The script indexes `schemas['bpmn-process']`
and treats it as a dict; if that is impossible the model returns `null`
(Python would raise), and every claim requires the base to be present. -/
def combinedPre (schemas : List (String × Json)) : Json :=
  match alFind schemas "bpmn-process" with
  | some (Json.obj base) =>
    Json.obj (objInsert base "definitions" (Json.obj (JsonObj.ofList (all_definitions schemas))))
  | _ => Json.null

/-- `if '$id' in combined: del combined['$id']` (lines 82-83). -/
def removeTopId : Json → Json
  | .obj o => .obj (objRemove o "$id")
  | j => j

/-- The document written to `schemas/bpmn-combined.json` (lines 79-87). -/
def combineResult (schemas : List (String × Json)) : Json :=
  removeTopId (update_refs (combinedPre schemas) "bpmn-process")

/-- The hardcoded input list (lines 14-21). -/
def schema_files : List String :=
  ["schemas/bpmn-common.json",
   "schemas/bpmn-flow-objects.json",
   "schemas/bpmn-connectors.json",
   "schemas/bpmn-artifacts.json",
   "schemas/bpmn-agents.json",
   "schemas/bpmn-process.json"]

/-- `Path(filepath).stem`: the final path component with its last
extension removed (for names like `.bashrc` Python keeps the whole name;
the hardcoded paths never hit that edge). -/
def pathStem (p : String) : String :=
  let base := (p.data.reverse.takeWhile (fun c => c ≠ '/')).reverse
  match chSplitFirst ['.'] base.reverse with
  | some (_, b) => ⟨b.reverse⟩
  | none => ⟨base⟩

/-- The loading loop (lines 23-27) over an abstract filesystem
`fs : path → Option Json`, where `none` models a missing file or
malformed JSON (both raise, aborting the loop): the first failing path
becomes the fatal error. -/
def loadAll (fs : String → Option Json) : List String → Except String (List (String × Json))
  | [] => .ok []
  | p :: ps =>
    match fs p with
    | none => .error p
    | some j => (loadAll fs ps).map (fun rest => (pathStem p, j) :: rest)

/-- One run of `combine_schemas` as a trace: the list of files written
(path and content) together with the fatal error, if any.  The output
file write (line 86) happens only after every load succeeded. -/
def combineRun (fs : String → Option Json) : List (String × Json) × Option String :=
  match loadAll fs schema_files with
  | .error p => ([], some p)
  | .ok schemas => ([("schemas/bpmn-combined.json", combineResult schemas)], none)

mutual

/-- All strings the walk treats as rewritable references: values of
`$ref` keys that are strings, collected in traversal order. -/
def refVals : Json → List String
  | .obj kvs => refValsObj kvs
  | .arr xs => refValsArr xs
  | _ => []

def refValsArr : JsonArr → List String
  | .nil => []
  | .cons x xs => refVals x ++ refValsArr xs

def refValsObj : JsonObj → List String
  | .nil => []
  | .cons k v kvs =>
    (if k = "$ref" ∧ v.isStr = true then [v.asStr] else refVals v) ++ refValsObj kvs

end

/-- `minimalDoc` with `sequenceFlows[0].targetRef` changed to the
undeclared id `a2`. -/
def invalidTargetDoc : Json :=
  jobj [("process", jobj
    [("id", Json.str "p1"),
     ("name", Json.str "P"),
     ("elements", jobj
       [("events", jarr [jobj [("id", Json.str "e1"), ("type", Json.str "startEvent")]]),
        ("activities", jarr [jobj [("id", Json.str "a1"), ("name", Json.str "Task"), ("type", Json.str "task")]]),
        ("sequenceFlows", jarr [jobj [("id", Json.str "f1"), ("sourceRef", Json.str "e1"), ("targetRef", Json.str "a2")]])])])]

/-- A document whose event and gateway both lack a `name` field; the
validator accepts it, showing the `name` requirement applies to
activities only. -/
def noNameDoc : Json :=
  jobj [("process", jobj
    [("id", Json.str "p1"),
     ("name", Json.str "P"),
     ("elements", jobj
       [("events", jarr [jobj [("id", Json.str "e1"), ("type", Json.str "startEvent")]]),
        ("gateways", jarr [jobj [("id", Json.str "g1"), ("type", Json.str "exclusiveGateway")]])])])]

/-- The keys of the `definitions` map of a (combined) schema document. -/
def combinedDefKeys (j : Json) : List String :=
  match j.get "definitions" with
  | some (Json.obj o) => o.keys
  | _ => []

/-- The merge-key assignment exactly as claims C1/C2 word it: the prefix
is the source name with the *leading* `bpmn-` token removed (rather than
every occurrence). -/
def claimKey (n d : String) : String :=
  if n = "bpmn-process" then d
  else (⟨stripLeadTok bpmnD n.data⟩ : String) ++ "_" ++ d

/-- The merged-definitions content exactly as claim C2 words it. -/
def claimPairs : List (String × Json) → List (String × Json)
  | [] => []
  | (n, doc) :: rest => (defsOf doc).map (fun p => (claimKey n p.1, p.2)) ++ claimPairs rest

/-- One activity lacking a `name` field, for exercising the
activities-only name requirement. -/
def act9 : Json := jobj [("id", Json.str "a1"), ("type", Json.str "task")]

def elems9 : Json := jobj [("activities", jarr [act9])]

def proc9 : JsonObj :=
  JsonObj.ofList [("id", Json.str "p"), ("name", Json.str "N"), ("elements", elems9)]

def doc9Obj : JsonObj := JsonObj.ofList [("process", Json.obj proc9)]

def doc9 : Json := Json.obj doc9Obj

/-! ## Helper lemmas about the validator -/

theorem flowErrs_mem_congr (ids ids' : List Json) (h : ∀ x : Json, x ∈ ids ↔ x ∈ ids') :
    ∀ fl : List Json, flowErrs ids fl = flowErrs ids' fl
  | [] => rfl
  | f :: rest => by
    have ih := flowErrs_mem_congr ids ids' h rest
    simp only [flowErrs, ih, h]

theorem strDataAppend (a b : String) : (a ++ b).data = a.data ++ b.data := by
  cases a; cases b; rfl

theorem head_lit_append (a b : String) (c : Char) (h : a.data.head? = some c) :
    (a ++ b).data.head? = some c := by
  cases a with | mk d =>
  cases b with | mk e =>
  cases d with
  | nil => simp at h
  | cons x xs =>
    have hx : (String.mk (x :: xs) ++ String.mk e).data = x :: (xs ++ e) := rfl
    rw [hx]
    simpa using h

theorem ne_P_of_head {m : String} {c : Char} (h : m.data.head? = some c) (hc : c ≠ 'P') :
    m.data.head? ≠ some 'P' := by
  rw [h]
  simpa using hc

theorem eventErrs_not_P (l : List Json) : ∀ m ∈ eventErrs l, m.data.head? ≠ some 'P' := by
  induction l with
  | nil => intro m hm; simp [eventErrs] at hm
  | cons e rest ih =>
    intro m hm
    simp only [eventErrs, List.mem_append] at hm
    rcases hm with ((h | h) | h) | h
    · split at h
      · simp at h
      · rw [List.mem_singleton] at h
        subst h
        exact ne_P_of_head (head_lit_append _ _ 'E' rfl) (by decide)
    · split at h
      · simp at h
      · rw [List.mem_singleton] at h
        subst h
        exact ne_P_of_head (head_lit_append _ _ 'E' (head_lit_append _ _ 'E' rfl)) (by decide)
    · split at h
      · rw [List.mem_singleton] at h
        subst h
        exact ne_P_of_head (head_lit_append _ _ 'B' (head_lit_append _ _ 'B' rfl)) (by decide)
      · simp at h
    · exact ih m h

theorem activityErrs_not_P (l : List Json) : ∀ m ∈ activityErrs l, m.data.head? ≠ some 'P' := by
  induction l with
  | nil => intro m hm; simp [activityErrs] at hm
  | cons a rest ih =>
    intro m hm
    simp only [activityErrs, List.mem_append] at hm
    rcases hm with (((h | h) | h) | h) | h
    · split at h
      · simp at h
      · rw [List.mem_singleton] at h
        subst h
        exact ne_P_of_head (head_lit_append _ _ 'A' rfl) (by decide)
    · split at h
      · simp at h
      · rw [List.mem_singleton] at h
        subst h
        exact ne_P_of_head (head_lit_append _ _ 'A' (head_lit_append _ _ 'A' rfl)) (by decide)
    · split at h
      · simp at h
      · rw [List.mem_singleton] at h
        subst h
        exact ne_P_of_head (head_lit_append _ _ 'A' (head_lit_append _ _ 'A' rfl)) (by decide)
    · split at h
      · rename_i agent heq
        rw [List.mem_append] at h
        rcases h with h | h
        · split at h
          · simp at h
          · rw [List.mem_singleton] at h
            subst h
            exact ne_P_of_head (head_lit_append _ _ 'A' (head_lit_append _ _ 'A' rfl)) (by decide)
        · split at h
          · simp at h
          · rw [List.mem_singleton] at h
            subst h
            exact ne_P_of_head (head_lit_append _ _ 'A' (head_lit_append _ _ 'A' rfl)) (by decide)
      · simp at h
    · exact ih m h

theorem gatewayErrs_not_P (l : List Json) : ∀ m ∈ gatewayErrs l, m.data.head? ≠ some 'P' := by
  induction l with
  | nil => intro m hm; simp [gatewayErrs] at hm
  | cons g rest ih =>
    intro m hm
    simp only [gatewayErrs, List.mem_append] at hm
    rcases hm with (h | h) | h
    · split at h
      · simp at h
      · rw [List.mem_singleton] at h
        subst h
        exact ne_P_of_head (head_lit_append _ _ 'G' rfl) (by decide)
    · split at h
      · simp at h
      · rw [List.mem_singleton] at h
        subst h
        exact ne_P_of_head (head_lit_append _ _ 'G' (head_lit_append _ _ 'G' rfl)) (by decide)
    · exact ih m h

theorem flowErrs_not_P (ids : List Json) (l : List Json) :
    ∀ m ∈ flowErrs ids l, m.data.head? ≠ some 'P' := by
  induction l with
  | nil => intro m hm; simp [flowErrs] at hm
  | cons f rest ih =>
    intro m hm
    simp only [flowErrs, List.mem_append] at hm
    rcases hm with ((h | h) | h) | h
    · split at h
      · simp at h
      · rw [List.mem_singleton] at h
        subst h
        exact ne_P_of_head (head_lit_append _ _ 'S' rfl) (by decide)
    · split at h
      · rw [List.mem_singleton] at h
        subst h
        exact ne_P_of_head (head_lit_append _ _ 'S' (head_lit_append _ _ 'S' rfl)) (by decide)
      · split at h
        · simp at h
        · rw [List.mem_singleton] at h
          subst h
          exact ne_P_of_head
            (head_lit_append _ _ 'S' (head_lit_append _ _ 'S' (head_lit_append _ _ 'S' rfl)))
            (by decide)
    · split at h
      · rw [List.mem_singleton] at h
        subst h
        exact ne_P_of_head (head_lit_append _ _ 'S' (head_lit_append _ _ 'S' rfl)) (by decide)
      · split at h
        · simp at h
        · rw [List.mem_singleton] at h
          subst h
          exact ne_P_of_head
            (head_lit_append _ _ 'S' (head_lit_append _ _ 'S' (head_lit_append _ _ 'S' rfl)))
            (by decide)
    · exact ih m h

/-- No message produced inside the `elements` branch starts with `P`, so
none of them can collide with the three `Process missing ...` messages. -/
theorem elementsErrs_count_P (elements : Json) (msg : String)
    (hmsg : msg.data.head? = some 'P') :
    List.count msg (elementsErrs elements) = 0 := by
  rw [List.count_eq_zero]
  intro hmem
  simp only [elementsErrs, List.mem_append] at hmem
  rcases hmem with ((h | h) | h) | h
  · exact eventErrs_not_P _ msg h hmsg
  · exact activityErrs_not_P _ msg h hmsg
  · exact gatewayErrs_not_P _ msg h hmsg
  · exact flowErrs_not_P _ _ msg h hmsg

theorem activityErrs_name_mem (l : List Json) (a : Json) (ha : a ∈ l)
    (hkey : a.hasKey "name" = false) :
    ("Activity " ++ fmtVal (a.getD "id" (Json.str "?")) ++ " missing \x27name\x27") ∈ activityErrs l := by
  induction l with
  | nil => cases ha
  | cons x rest ih =>
    rcases List.mem_cons.mp ha with rfl | hmem
    · simp only [activityErrs, hkey]
      simp
    · simp only [activityErrs, List.mem_append]
      exact Or.inr (ih hmem)

/-! ## Claims about the structural validator -/

/-- C6: for the minimal valid document (process with id, name, and one
start event, one task and one sequence flow connecting them),
`check_bpmn_file` returns the empty error list. -/
theorem c6_minimal_valid : check_bpmn_file minimalDoc = [] := rfl

/-- C7: with `sequenceFlows[0].targetRef` changed to the undeclared id
`a2`, `check_bpmn_file` returns exactly one error, citing the invalid
targetRef value `a2`; and the sequence-flow reference check depends on
the ids of events, activities and gateways only through membership in
the fully accumulated set, so permuting any of the three arrays leaves
the flow errors unchanged. -/
theorem c7_invalid_targetRef_order :
    check_bpmn_file invalidTargetDoc = ["Sequence flow f1 has invalid targetRef: a2"] ∧
    ∀ (ev ev' act act' gw gw' fl : List Json),
      ev.Perm ev' → act.Perm act' → gw.Perm gw' →
      flowErrs (idsOfElems ev' ++ idsOfElems act' ++ idsOfElems gw') fl =
        flowErrs (idsOfElems ev ++ idsOfElems act ++ idsOfElems gw) fl := by
  refine ⟨rfl, ?_⟩
  intro ev ev' act act' gw gw' fl hev hact hgw
  apply flowErrs_mem_congr
  intro x
  have hp : (idsOfElems ev' ++ idsOfElems act' ++ idsOfElems gw').Perm
      (idsOfElems ev ++ idsOfElems act ++ idsOfElems gw) := by
    simp only [idsOfElems]
    exact ((hev.symm.filterMap _).append (hact.symm.filterMap _)).append (hgw.symm.filterMap _)
  exact hp.mem_iff

theorem c7_invalid_targetRef_order_witness :
    flowErrs (idsOfElems [jobj [("id", Json.str "e2")], jobj [("id", Json.str "e1")]] ++
        idsOfElems [] ++ idsOfElems [])
      [jobj [("id", Json.str "f1"), ("sourceRef", Json.str "e1"), ("targetRef", Json.str "e2")]] =
    flowErrs (idsOfElems [jobj [("id", Json.str "e1")], jobj [("id", Json.str "e2")]] ++
        idsOfElems [] ++ idsOfElems [])
      [jobj [("id", Json.str "f1"), ("sourceRef", Json.str "e1"), ("targetRef", Json.str "e2")]] :=
  c7_invalid_targetRef_order.2
    [jobj [("id", Json.str "e1")], jobj [("id", Json.str "e2")]]
    [jobj [("id", Json.str "e2")], jobj [("id", Json.str "e1")]]
    [] [] [] []
    [jobj [("id", Json.str "f1"), ("sourceRef", Json.str "e1"), ("targetRef", Json.str "e2")]]
    (by decide) (by decide) (by decide)

/-- C9: an activity lacking a `name` field always produces the error
citing the activity's id (or the placeholder `?`); events and gateways
carry no such requirement — a document whose event and gateway lack
`name` validates cleanly. -/
theorem c9_activity_requires_name (kvs pkvs : JsonObj) (elements a : Json)
    (acts : JsonArr) (akvs : JsonObj)
    (hproc : (Json.obj kvs).get "process" = some (Json.obj pkvs))
    (helems : pkvs.find "elements" = some elements)
    (hacts : elements.get "activities" = some (Json.arr acts))
    (ha : a ∈ acts.toList)
    (hobj : a = Json.obj akvs)
    (hname : akvs.find "name" = none) :
    ("Activity " ++ fmtVal (a.getD "id" (Json.str "?")) ++ " missing \x27name\x27") ∈
        check_bpmn_file (Json.obj kvs) ∧
      check_bpmn_file noNameDoc = [] := by
  refine ⟨?_, rfl⟩
  have hmem : ("Activity " ++ fmtVal (a.getD "id" (Json.str "?")) ++ " missing \x27name\x27") ∈
      activityErrs (arrItems (elements.get "activities")) := by
    apply activityErrs_name_mem _ a
    · rw [hacts]; simpa [arrItems] using ha
    · simp [hobj, Json.hasKey, Json.get, hname]
  simp only [check_bpmn_file, hproc]
  simp only [Json.get, helems]
  refine List.mem_append_right _ ?_
  simp only [elementsErrs]
  exact List.mem_append_left _ (List.mem_append_left _ (List.mem_append_right _ hmem))

theorem c9_activity_requires_name_witness :
    ("Activity " ++ fmtVal (act9.getD "id" (Json.str "?")) ++ " missing \x27name\x27") ∈
        check_bpmn_file doc9 ∧
      check_bpmn_file noNameDoc = [] :=
  c9_activity_requires_name doc9Obj proc9 elems9 act9 (JsonArr.ofList [act9])
    (JsonObj.ofList [("id", Json.str "a1"), ("type", Json.str "task")])
    rfl rfl rfl (by decide) rfl rfl

/-- C10: when the process object lacks `elements`, the result is exactly
the independent id/name presence errors followed by the single missing
`elements` error — no per-element or sequence-flow error can occur. -/
theorem c10_missing_elements (kvs pkvs : JsonObj)
    (hproc : (Json.obj kvs).get "process" = some (Json.obj pkvs))
    (helems : pkvs.find "elements" = none) :
    check_bpmn_file (Json.obj kvs) =
      (if (Json.obj pkvs).hasKey "id" then [] else ["Process missing \x27id\x27 field"]) ++
      (if (Json.obj pkvs).hasKey "name" then [] else ["Process missing \x27name\x27 field"]) ++
      ["Process missing \x27elements\x27 field"] := by
  simp only [check_bpmn_file, hproc]
  simp only [Json.get, helems]

theorem c10_missing_elements_witness :
    check_bpmn_file (Json.obj (JsonObj.ofList [("process",
        Json.obj (JsonObj.ofList [("id", Json.str "p"), ("name", Json.str "n")]))])) =
      ["Process missing \x27elements\x27 field"] := by
  have h := c10_missing_elements
    (JsonObj.ofList [("process", Json.obj (JsonObj.ofList [("id", Json.str "p"), ("name", Json.str "n")]))])
    (JsonObj.ofList [("id", Json.str "p"), ("name", Json.str "n")]) rfl rfl
  simpa using h

/-- C8: a document without a `process` key yields exactly the single
missing-root error and nothing else; when `process` is present (as an
object), the `id`, `name` and `elements` presence checks each contribute
exactly one error, independently of one another and of everything
checked inside `elements`. -/
theorem c8_missing_process_and_independence (kvs : JsonObj) :
    ((Json.obj kvs).get "process" = none →
      check_bpmn_file (Json.obj kvs) = ["Missing \x27process\x27 root element"]) ∧
    (∀ pkvs : JsonObj, (Json.obj kvs).get "process" = some (Json.obj pkvs) →
      List.count "Process missing \x27id\x27 field" (check_bpmn_file (Json.obj kvs)) =
          (if pkvs.find "id" = none then 1 else 0) ∧
        List.count "Process missing \x27name\x27 field" (check_bpmn_file (Json.obj kvs)) =
          (if pkvs.find "name" = none then 1 else 0) ∧
        List.count "Process missing \x27elements\x27 field" (check_bpmn_file (Json.obj kvs)) =
          (if pkvs.find "elements" = none then 1 else 0)) := by
  constructor
  · intro h
    simp only [check_bpmn_file, h]
  · intro pkvs hsome
    simp only [check_bpmn_file]
    rw [hsome]
    simp only [Json.hasKey, Json.get]
    rcases helems : pkvs.find "elements" with _ | elements
    · by_cases hid : pkvs.find "id" = none <;>
        by_cases hname : pkvs.find "name" = none <;>
          simp [List.count_append, hid, hname, Option.isSome_iff_ne_none]
    · by_cases hid : pkvs.find "id" = none <;>
        by_cases hname : pkvs.find "name" = none <;>
          simp [List.count_append, hid, hname, Option.isSome_iff_ne_none,
            elementsErrs_count_P elements "Process missing \x27id\x27 field" (by decide),
            elementsErrs_count_P elements "Process missing \x27name\x27 field" (by decide),
            elementsErrs_count_P elements "Process missing \x27elements\x27 field" (by decide)]

theorem c8_missing_process_and_independence_witness :
    check_bpmn_file (Json.obj JsonObj.nil) = ["Missing \x27process\x27 root element"] ∧
    List.count "Process missing \x27id\x27 field"
        (check_bpmn_file (Json.obj (JsonObj.cons "process" (jobj [("elements", jobj [])]) JsonObj.nil))) = 1 :=
  ⟨(c8_missing_process_and_independence JsonObj.nil).1 rfl,
   by
    have h := ((c8_missing_process_and_independence
        (JsonObj.cons "process" (jobj [("elements", jobj [])]) JsonObj.nil)).2
      (JsonObj.ofList [("elements", jobj [])]) rfl).1
    simpa using h⟩

/-! ## Helper lemmas about the string machinery -/

theorem sf_decomp (sep : List Char) :
    ∀ (s a b : List Char), chSplitFirst sep s = some (a, b) → s = a ++ (sep ++ b) := by
  intro s
  induction s with
  | nil => intro a b h; simp [chSplitFirst] at h
  | cons c cs ih =>
    intro a b h
    rw [chSplitFirst] at h
    split at h
    · rename_i hpre
      simp only [Option.some.injEq, Prod.mk.injEq] at h
      obtain ⟨ha, hb⟩ := h
      subst ha
      subst hb
      obtain ⟨t, ht⟩ := List.isPrefixOf_iff_prefix.mp hpre
      rw [List.nil_append, ← ht, List.drop_left]
    · simp only [Option.map_eq_some'] at h
      obtain ⟨⟨a', b'⟩, hcs, heq⟩ := h
      simp only [Prod.mk.injEq] at heq
      obtain ⟨ha, hb⟩ := heq
      subst ha
      subst hb
      rw [ih a' b' hcs]
      simp

theorem pfx_of_append_cons {c : Char} :
    ∀ (a p d : List Char), p <+: a ++ c :: d → c ∉ p → p <+: a := by
  intro a
  induction a with
  | nil =>
    intro p d h hc
    cases p with
    | nil => exact List.nil_prefix
    | cons x q =>
      rw [List.nil_append, List.cons_prefix_cons] at h
      obtain ⟨rfl, -⟩ := h
      exact absurd (List.mem_cons_self x q) hc
  | cons y a' ih =>
    intro p d h hc
    cases p with
    | nil => exact List.nil_prefix
    | cons x q =>
      rw [List.cons_append, List.cons_prefix_cons] at h
      obtain ⟨rfl, h2⟩ := h
      rw [List.cons_prefix_cons]
      exact ⟨rfl, ih q d h2 (fun hq => hc (List.mem_cons_of_mem _ hq))⟩

/-- `value.startswith("bpmn-")` tested on the whole ref value agrees with
testing it on the part before the (first) `#/definitions/`, because `#`
does not occur in `bpmn-`. -/
theorem bpmn_prefix_split (a b : List Char) :
    bpmnD.isPrefixOf (a ++ (sepD ++ b)) = bpmnD.isPrefixOf a := by
  have hsep : sepD ++ b = '#' :: ("/definitions/".data ++ b) := rfl
  by_cases hp : bpmnD <+: a
  · rw [List.isPrefixOf_iff_prefix.mpr hp,
      List.isPrefixOf_iff_prefix.mpr (hp.trans (List.prefix_append a _))]
  · have h2 : ¬ bpmnD <+: a ++ (sepD ++ b) := by
      intro hcon
      rw [hsep] at hcon
      exact hp (pfx_of_append_cons a bpmnD _ hcon (by decide))
    have e1 : bpmnD.isPrefixOf a = false :=
      Bool.eq_false_iff.mpr (fun h => hp (List.isPrefixOf_iff_prefix.mp h))
    have e2 : bpmnD.isPrefixOf (a ++ (sepD ++ b)) = false :=
      Bool.eq_false_iff.mpr (fun h => h2 (List.isPrefixOf_iff_prefix.mp h))
    rw [e1, e2]

/-- The source's order of operations (prefix test on the whole value,
then split, then length test) agrees with the specification's reading
(unique occurrence of the separator, prefix test on the file part). -/
theorem rewriteRefStr_eq_spec (v : String) : rewriteRefStr v = specRewriteStr v := by
  unfold rewriteRefStr specRewriteStr pySplit2
  rcases h1 : chSplitFirst sepD v.data with - | ⟨a, b⟩
  · simp only [h1]
    split <;> rfl
  · rcases h2 : chSplitFirst sepD b with - | p
    · have hdec := sf_decomp sepD v.data a b h1
      have hiff : bpmnD.isPrefixOf v.data = bpmnD.isPrefixOf a := by
        rw [hdec]
        exact bpmn_prefix_split a b
      simp only [h1, h2, hiff, true_and]
    · simp only [h1, h2]
      split
      · rfl
      · simp

mutual

theorem update_refs_eq_specWalk :
    ∀ (j : Json) (n : String), update_refs j n = walkWith specRewriteStr j
  | .null, _ => rfl
  | .bool _, _ => rfl
  | .num _, _ => rfl
  | .str _, _ => rfl
  | .arr xs, n => congrArg Json.arr (update_refsArr_eq_specWalk xs n)
  | .obj kvs, n => congrArg Json.obj (update_refsObj_eq_specWalk kvs n)

theorem update_refsArr_eq_specWalk :
    ∀ (xs : JsonArr) (n : String), update_refsArr xs n = walkWithArr specRewriteStr xs
  | .nil, _ => rfl
  | .cons x xs, n =>
    congrArg₂ JsonArr.cons (update_refs_eq_specWalk x n) (update_refsArr_eq_specWalk xs n)

theorem update_refsObj_eq_specWalk :
    ∀ (kvs : JsonObj) (n : String), update_refsObj kvs n = walkWithObj specRewriteStr kvs
  | .nil, _ => rfl
  | .cons k v kvs, n => by
    by_cases hc : k = "$ref" ∧ v.isStr = true
    · simp only [update_refsObj, walkWithObj, if_pos hc]
      rw [rewriteRefStr_eq_spec, update_refsObj_eq_specWalk kvs n]
    · simp only [update_refsObj, walkWithObj, if_neg hc]
      rw [update_refs_eq_specWalk v n, update_refsObj_eq_specWalk kvs n]

end

/-- C1 counterexample: on the ref value `bpmn-bpmn-x.json#/definitions/d`
the code removes every `bpmn-` occurrence from the prefix (yielding
`#/definitions/x_d`), while the claim's words — the leading `bpmn-` token
removed — require `#/definitions/bpmn-x_d`; so the walk as the claim
states it disagrees with `update_refs`. -/
theorem c1_counterexample :
    update_refs (jobj [("$ref", Json.str "bpmn-bpmn-x.json#/definitions/d")]) "bpmn-process" ≠
      walkWith claimRewriteStr (jobj [("$ref", Json.str "bpmn-bpmn-x.json#/definitions/d")]) := by
  decide

/-- C1 (amended): the recursive walk returns the same value except that
every string under a `$ref` key containing `#/definitions/` exactly once
and whose part before it starts with `bpmn-` is rewritten: the file part
has every `.json` occurrence removed and is compared with `bpmn-process`;
on match the result is `#/definitions/<name>`, otherwise
`#/definitions/<prefix>_<name>` where `<prefix>` additionally has every
`bpmn-` occurrence removed (left to right, non-overlapping); all other
values are left unchanged, the walk recursing through objects and arrays. -/
theorem c1_ref_rewrite_amended :
    (∀ v : String, rewriteRefStr v = specRewriteStr v) ∧
      ∀ (j : Json) (schema_name : String), update_refs j schema_name = walkWith specRewriteStr j :=
  ⟨rewriteRefStr_eq_spec, update_refs_eq_specWalk⟩

/-! ## Helper lemmas about the merge (dict folds) -/

theorem dictInsert_append (acc : List (String × Json)) (k : String) (v : Json)
    (hk : k ∉ acc.map Prod.fst) : dictInsert acc k v = acc ++ [(k, v)] := by
  induction acc with
  | nil => rfl
  | cons p t ih =>
    obtain ⟨k', v'⟩ := p
    simp only [List.map_cons, List.mem_cons, not_or] at hk
    obtain ⟨hne, hk2⟩ := hk
    rw [dictInsert, if_neg (fun h => hne h.symm), ih hk2, List.cons_append]

theorem foldl_dictInsert_nodup :
    ∀ (l acc : List (String × Json)), (((acc ++ l).map Prod.fst).Nodup) →
      l.foldl (fun acc p => dictInsert acc p.1 p.2) acc = acc ++ l := by
  intro l
  induction l with
  | nil => intro acc _; simp
  | cons p t ih =>
    intro acc h
    obtain ⟨k, v⟩ := p
    rw [List.foldl_cons]
    have hk : k ∉ acc.map Prod.fst := by
      rw [List.map_append, List.nodup_append] at h
      intro hmem
      exact h.2.2 hmem (by simp)
    rw [dictInsert_append acc k v hk, ih (acc ++ [(k, v)]) (by rw [List.append_assoc]; simpa using h),
      List.append_assoc]
    rfl

/-- C2 counterexample: for the source list containing a document named
`bpmn-bpmn-x`, the merge keys its definition `d` as `x_d` (every `bpmn-`
occurrence removed), while the claim's words — the stem with the leading
`bpmn-` removed — require `bpmn-x_d`; so the merged map does not contain
the pairs the claim describes. -/
theorem c2_counterexample :
    all_definitions
        [("bpmn-bpmn-x", jobj [("definitions", jobj [("d", Json.null)])]),
         ("bpmn-process", jobj [("definitions", jobj [("p", Json.null)])])] ≠
      claimPairs
        [("bpmn-bpmn-x", jobj [("definitions", jobj [("d", Json.null)])]),
         ("bpmn-process", jobj [("definitions", jobj [("p", Json.null)])])] := by
  decide

/-- C2 (amended): when the renamed keys are pairwise distinct (the source
silently overwrites on a collision), the merged definitions map contains
exactly, in document order then per-document definition order, the pair
`(name, definition)` for the base document `bpmn-process` and
`(prefix ++ "_" ++ name, definition)` otherwise, where `prefix` is the
document name with every `bpmn-` occurrence removed. -/
theorem c2_merge_amended (schemas : List (String × Json))
    (hnodup : ((mergedPairs schemas).map Prod.fst).Nodup) :
    all_definitions schemas = mergedPairs schemas := by
  unfold all_definitions
  rw [foldl_dictInsert_nodup (mergedPairs schemas) [] (by simpa using hnodup)]
  rfl

theorem c2_merge_amended_witness :
    all_definitions
        [("bpmn-common", jobj [("definitions", jobj [("Id", Json.null)])]),
         ("bpmn-process", jobj [("definitions", jobj [("p", Json.null)])])] =
      mergedPairs
        [("bpmn-common", jobj [("definitions", jobj [("Id", Json.null)])]),
         ("bpmn-process", jobj [("definitions", jobj [("p", Json.null)])])] :=
  c2_merge_amended
    [("bpmn-common", jobj [("definitions", jobj [("Id", Json.null)])]),
     ("bpmn-process", jobj [("definitions", jobj [("p", Json.null)])])]
    (by decide)

theorem strExt (a b : String) (h : a.data = b.data) : a = b := by
  cases a; cases b; exact congrArg String.mk h

theorem removeFuel_none (old : List Char) (f : Nat) (s : List Char)
    (h : chSplitFirst old s = none) : removeFuel old f s = s := by
  cases s with
  | nil => cases f <;> rfl
  | cons c cs =>
    cases f with
    | zero => rfl
    | succ f => simp only [removeFuel, h]

theorem chSplitFirst_here (sep t : List Char) (c : Char) (cs : List Char)
    (hsep : sep = c :: cs) : chSplitFirst sep (sep ++ t) = some ([], t) := by
  subst hsep
  rw [List.cons_append, chSplitFirst,
    if_pos (List.isPrefixOf_iff_prefix.mpr (by rw [← List.cons_append]; exact List.prefix_append _ _))]
  rw [← List.cons_append, List.drop_left]

theorem removeFuel_step (old : List Char) (f : Nat) (c : Char) (cs a b : List Char)
    (hs : chSplitFirst old (c :: cs) = some (a, b)) :
    removeFuel old (f + 1) (c :: cs) = a ++ removeFuel old f b := by
  simp only [removeFuel, hs]

theorem pyRemoveL_prefix_rest (r : List Char) (hr : chSplitFirst bpmnD r = none) :
    pyRemoveL bpmnD (bpmnD ++ r) = r := by
  have hb : bpmnD ++ r = 'b' :: ("pmn-".data ++ r) := rfl
  have hsplit : chSplitFirst bpmnD ('b' :: ("pmn-".data ++ r)) = some ([], r) := by
    rw [← hb]
    exact chSplitFirst_here bpmnD r 'b' "pmn-".data rfl
  unfold pyRemoveL
  rw [hb]
  rw [show ('b' :: ("pmn-".data ++ r)).length = ("pmn-".data ++ r).length + 1 from rfl]
  rw [removeFuel_step bpmnD _ 'b' ("pmn-".data ++ r) [] r hsplit]
  rw [List.nil_append, removeFuel_none bpmnD _ r hr]

theorem underscore_inj :
    ∀ (p₁ p₂ x y : List Char), '_' ∉ p₁ → '_' ∉ p₂ →
      p₁ ++ '_' :: x = p₂ ++ '_' :: y → p₁ = p₂ ∧ x = y := by
  intro p₁
  induction p₁ with
  | nil =>
    intro p₂ x y h1 h2 he
    cases p₂ with
    | nil => simpa using he
    | cons c q =>
      simp only [List.nil_append, List.cons_append, List.cons.injEq] at he
      exfalso
      apply h2
      rw [← he.1]
      exact List.mem_cons_self _ _
  | cons c q ih =>
    intro p₂ x y h1 h2 he
    cases p₂ with
    | nil =>
      simp only [List.nil_append, List.cons_append, List.cons.injEq] at he
      exfalso
      apply h1
      rw [he.1]
      exact List.mem_cons_self _ _
    | cons c₂ q₂ =>
      simp only [List.cons_append, List.cons.injEq] at he
      obtain ⟨rfl, he2⟩ := he
      have hrec := ih q₂ x y (fun h => h1 (List.mem_cons_of_mem _ h))
        (fun h => h2 (List.mem_cons_of_mem _ h)) he2
      exact ⟨by rw [hrec.1], hrec.2⟩

theorem renKey_base (d : String) : renKey "bpmn-process" d = d := by
  rw [renKey, if_pos rfl]

theorem renKey_nonbase_data (n d : String) (r : List Char) (hne : n ≠ "bpmn-process")
    (hn : n.data = bpmnD ++ r) (hr : chSplitFirst bpmnD r = none) :
    (renKey n d).data = r ++ '_' :: d.data := by
  rw [renKey, if_neg hne, strDataAppend, strDataAppend]
  have hd : (⟨pyRemoveL bpmnD n.data⟩ : String).data = pyRemoveL bpmnD n.data := rfl
  rw [hd, hn, pyRemoveL_prefix_rest r hr]
  have hu : "_".data = ['_'] := rfl
  rw [hu, List.append_assoc, List.singleton_append]

theorem mergedPairs_key_mem :
    ∀ (schemas : List (String × Json)) (k : String),
      k ∈ (mergedPairs schemas).map Prod.fst →
      ∃ p ∈ schemas, ∃ d ∈ (defsOf p.2).map Prod.fst, k = renKey p.1 d := by
  intro schemas
  induction schemas with
  | nil => intro k h; simp [mergedPairs] at h
  | cons p rest ih =>
    intro k h
    obtain ⟨n, doc⟩ := p
    simp only [mergedPairs, List.map_append, List.mem_append] at h
    rcases h with h | h
    · simp only [List.map_map, List.mem_map, Function.comp] at h
      obtain ⟨q, hq, hk⟩ := h
      exact ⟨(n, doc), List.mem_cons_self _ _, q.1, List.mem_map_of_mem _ hq, hk.symm⟩
    · obtain ⟨p', hp', d, hd, hk⟩ := ih k h
      exact ⟨p', List.mem_cons_of_mem _ hp', d, hd, hk⟩

/-- C4 counterexample: the documents named `bpmn-a` and `a` both send
their definition `d` to the key `a_d` (the second document's name has no
`bpmn-` to strip, the first loses it), so two distinct source entries
collide and the later one silently overwrites the earlier. -/
theorem c4_counterexample :
    ¬ ((mergedPairs
        [("bpmn-a", jobj [("definitions", jobj [("d", Json.null)])]),
         ("a", jobj [("definitions", jobj [("d", Json.bool true)])]),
         ("bpmn-process", jobj [("definitions", jobj [("p", Json.null)])])]).map
      Prod.fst).Nodup := by
  decide

/-- C4 (amended): when the source documents have pairwise-distinct names,
distinct per-document definition names, every non-base name is `bpmn-`
followed by a remainder with no further `bpmn-` occurrence and no
underscore, and the base document's definition names contain no
underscore, the merge maps distinct source (document, definition-name)
entries to pairwise-distinct keys. -/
theorem c4_uniqueness_amended (schemas : List (String × Json))
    (hnames : (schemas.map Prod.fst).Nodup)
    (hdefs : ∀ p ∈ schemas, ((defsOf p.2).map Prod.fst).Nodup)
    (hshape : ∀ p ∈ schemas, p.1 ≠ "bpmn-process" →
      ∃ r : List Char, p.1.data = bpmnD ++ r ∧ chSplitFirst bpmnD r = none ∧ '_' ∉ r)
    (hbase : ∀ p ∈ schemas, p.1 = "bpmn-process" →
      ∀ d ∈ (defsOf p.2).map Prod.fst, '_' ∉ d.data) :
    ((mergedPairs schemas).map Prod.fst).Nodup := by
  revert hnames hdefs hshape hbase
  induction schemas with
  | nil =>
    intro _ _ _ _
    simp [mergedPairs]
  | cons p rest ih =>
    intro hnames hdefs hshape hbase
    obtain ⟨n, doc⟩ := p
    simp only [mergedPairs, List.map_append]
    rw [List.nodup_append]
    have hmemself : (n, doc) ∈ (n, doc) :: rest := List.mem_cons_self _ _
    have hnodupn : n ∉ rest.map Prod.fst := by
      simp only [List.map_cons, List.nodup_cons] at hnames
      exact hnames.1
    refine ⟨?_, ?_, ?_⟩
    · have hkeys : ((defsOf doc).map (fun q => (renKey n q.1, q.2))).map Prod.fst
          = ((defsOf doc).map Prod.fst).map (renKey n) := by
        simp [List.map_map, Function.comp]
      rw [hkeys]
      have hinj : Function.Injective (renKey n) := by
        by_cases hb : n = "bpmn-process"
        · subst hb
          intro d₁ d₂ h
          rwa [renKey_base, renKey_base] at h
        · obtain ⟨r, hn, hr, -⟩ := hshape (n, doc) hmemself hb
          intro d₁ d₂ h
          have hd : (renKey n d₁).data = (renKey n d₂).data := by rw [h]
          rw [renKey_nonbase_data n d₁ r hb hn hr, renKey_nonbase_data n d₂ r hb hn hr] at hd
          have hc := List.append_cancel_left hd
          simp only [List.cons.injEq, true_and] at hc
          exact strExt d₁ d₂ hc
      exact (hdefs (n, doc) hmemself).map hinj
    · exact ih (by simpa using (List.nodup_cons.mp (by simpa using hnames)).2)
        (fun p hp => hdefs p (List.mem_cons_of_mem _ hp))
        (fun p hp => hshape p (List.mem_cons_of_mem _ hp))
        (fun p hp => hbase p (List.mem_cons_of_mem _ hp))
    · intro k hk hk'
      have hk1 : ∃ d ∈ (defsOf doc).map Prod.fst, k = renKey n d := by
        simp only [List.map_map, List.mem_map, Function.comp] at hk
        obtain ⟨q, hq, hkq⟩ := hk
        exact ⟨q.1, List.mem_map_of_mem _ hq, hkq.symm⟩
      obtain ⟨d, hd, hkd⟩ := hk1
      obtain ⟨⟨n', doc'⟩, hp', d', hd', hkd'⟩ := mergedPairs_key_mem rest k hk'
      have hmem' : (n', doc') ∈ (n, doc) :: rest := List.mem_cons_of_mem _ hp'
      have hne : n ≠ n' := by
        intro hcon
        exact hnodupn (hcon ▸ List.mem_map_of_mem Prod.fst hp')
      by_cases hb : n = "bpmn-process" <;> by_cases hb' : n' = "bpmn-process"
      · exact hne (hb.trans hb'.symm)
      · obtain ⟨r', hn', hr', hru'⟩ := hshape (n', doc') hmem' hb'
        have hnd : '_' ∉ k.data := by
          rw [hkd, hb, renKey_base]
          exact hbase (n, doc) hmemself hb d hd
        apply hnd
        rw [hkd', renKey_nonbase_data n' d' r' hb' hn' hr']
        exact List.mem_append_right _ (List.mem_cons_self _ _)
      · obtain ⟨r, hn, hr, hru⟩ := hshape (n, doc) hmemself hb
        have hnd : '_' ∉ k.data := by
          rw [hkd', hb', renKey_base]
          exact hbase (n', doc') hmem' hb' d' hd'
        apply hnd
        rw [hkd, renKey_nonbase_data n d r hb hn hr]
        exact List.mem_append_right _ (List.mem_cons_self _ _)
      · obtain ⟨r, hn, hr, hru⟩ := hshape (n, doc) hmemself hb
        obtain ⟨r', hn', hr', hru'⟩ := hshape (n', doc') hmem' hb'
        have heq : r ++ '_' :: d.data = r' ++ '_' :: d'.data := by
          rw [← renKey_nonbase_data n d r hb hn hr, ← renKey_nonbase_data n' d' r' hb' hn' hr',
            ← hkd, ← hkd']
        have hrr := (underscore_inj r r' d.data d'.data hru hru' heq).1
        apply hne
        apply strExt
        rw [hn, hn', hrr]

theorem c4_uniqueness_amended_witness :
    ((mergedPairs
        [("bpmn-process", jobj [("definitions", jobj [("Process", Json.null)])]),
         ("bpmn-common", jobj [("definitions", jobj [("Id", Json.null), ("Name", Json.null)])])]).map
      Prod.fst).Nodup :=
  c4_uniqueness_amended
    [("bpmn-process", jobj [("definitions", jobj [("Process", Json.null)])]),
     ("bpmn-common", jobj [("definitions", jobj [("Id", Json.null), ("Name", Json.null)])])]
    (by decide) (by decide)
    (by
      intro p hp hne
      rcases List.mem_cons.mp hp with rfl | hp2
      · exact absurd rfl hne
      · rcases List.mem_cons.mp hp2 with rfl | h3
        · exact ⟨"common".data, rfl, by decide, by decide⟩
        · simp at h3)
    (by decide)

theorem loadAll_fails (fs : String → Option Json) :
    ∀ l : List String, (∃ p ∈ l, fs p = none) →
      ∃ q ∈ l, loadAll fs l = Except.error q ∧ fs q = none := by
  intro l
  induction l with
  | nil => intro h; simp at h
  | cons p ps ih =>
    intro h
    rcases hfp : fs p with - | j
    · exact ⟨p, List.mem_cons_self _ _, by simp [loadAll, hfp], hfp⟩
    · have h2 : ∃ q ∈ ps, fs q = none := by
        rcases h with ⟨q, hq, hfq⟩
        rcases List.mem_cons.mp hq with rfl | hq2
        · rw [hfp] at hfq; cases hfq
        · exact ⟨q, hq2, hfq⟩
      obtain ⟨q, hq, herr, hfq⟩ := ih h2
      exact ⟨q, List.mem_cons_of_mem _ hq, by simp [loadAll, hfp, herr, Except.map], hfq⟩

/-- C5: if any of the six input schema files fails to load (missing file
or malformed JSON, modelled as `fs p = none`), the run writes no file at
all — in particular the combined-schema output is never written — and
aborts with a fatal error naming a failing input path. -/
theorem c5_atomic_abort (fs : String → Option Json) (p : String)
    (hp : p ∈ schema_files) (hfail : fs p = none) :
    (combineRun fs).1 = [] ∧
      ∃ q ∈ schema_files, (combineRun fs).2 = some q ∧ fs q = none := by
  obtain ⟨q, hq, herr, hfq⟩ := loadAll_fails fs schema_files ⟨p, hp, hfail⟩
  exact ⟨by simp [combineRun, herr], q, hq, by simp [combineRun, herr], hfq⟩

theorem c5_atomic_abort_witness :
    (combineRun (fun _ => none)).1 = [] ∧
      ∃ q ∈ schema_files, (combineRun (fun _ => none)).2 = some q ∧
        (fun _ => (none : Option Json)) q = none :=
  c5_atomic_abort (fun _ => none) "schemas/bpmn-common.json" (by decide) rfl

/-! ## Helper lemmas for the round-trip claim -/

mutual

theorem refVals_update_refs :
    ∀ (j : Json) (n : String), refVals (update_refs j n) = (refVals j).map rewriteRefStr
  | .null, _ => rfl
  | .bool _, _ => rfl
  | .num _, _ => rfl
  | .str _, _ => rfl
  | .arr xs, n => refValsArr_update xs n
  | .obj kvs, n => refValsObj_update kvs n

theorem refValsArr_update :
    ∀ (xs : JsonArr) (n : String),
      refValsArr (update_refsArr xs n) = (refValsArr xs).map rewriteRefStr
  | .nil, _ => rfl
  | .cons x xs, n => by
    show refVals (update_refs x n) ++ refValsArr (update_refsArr xs n) =
      (refVals x ++ refValsArr xs).map rewriteRefStr
    rw [List.map_append, refVals_update_refs x n, refValsArr_update xs n]

theorem refValsObj_update :
    ∀ (kvs : JsonObj) (n : String),
      refValsObj (update_refsObj kvs n) = (refValsObj kvs).map rewriteRefStr
  | .nil, _ => rfl
  | .cons k v kvs, n => by
    by_cases hc : k = "$ref" ∧ v.isStr = true
    · simp only [update_refsObj, refValsObj, if_pos hc]
      rw [if_pos ⟨hc.1, rfl⟩, refValsObj_update kvs n]
      simp [Json.asStr]
    · have hstr : (update_refs v n).isStr = v.isStr := by cases v <;> rfl
      simp only [update_refsObj, refValsObj, if_neg hc]
      rw [if_neg (by rw [hstr]; exact hc), refVals_update_refs v n, refValsObj_update kvs n,
        List.map_append]

end

theorem objInsert_find_self : ∀ (o : JsonObj) (k : String) (v : Json),
    (objInsert o k v).find k = some v
  | .nil, k, v => by simp [objInsert, JsonObj.find]
  | .cons k' v' t, k, v => by
    by_cases h : k' = k
    · rw [objInsert, if_pos h, JsonObj.find, if_pos h]
    · rw [objInsert, if_neg h, JsonObj.find, if_neg h, objInsert_find_self t k v]

theorem keys_ofList (l : List (String × Json)) :
    (JsonObj.ofList l).keys = l.map Prod.fst := by
  induction l with
  | nil => rfl
  | cons p t ih =>
    obtain ⟨k, v⟩ := p
    rw [JsonObj.ofList, JsonObj.keys, ih, List.map_cons]

theorem update_refsObj_find : ∀ (o : JsonObj) (key n : String), key ≠ "$ref" →
    (update_refsObj o n).find key = (o.find key).map (fun v => update_refs v n)
  | .nil, _, _, _ => rfl
  | .cons k v t, key, n, h => by
    by_cases hc : k = "$ref" ∧ v.isStr = true
    · rw [update_refsObj, if_pos hc, JsonObj.find, if_neg (hc.1 ▸ fun hk => h hk.symm),
        JsonObj.find, if_neg (hc.1 ▸ fun hk => h hk.symm), update_refsObj_find t key n h]
    · rw [update_refsObj, if_neg hc, JsonObj.find, JsonObj.find]
      by_cases hk : k = key
      · rw [if_pos hk, if_pos hk, Option.map_some']
      · rw [if_neg hk, if_neg hk, update_refsObj_find t key n h]

theorem objRemove_find : ∀ (o : JsonObj) (key : String), key ≠ "$id" →
    (objRemove o "$id").find key = o.find key
  | .nil, _, _ => rfl
  | .cons k v t, key, h => by
    by_cases hk : k = "$id"
    · rw [objRemove, if_pos hk, JsonObj.find, if_neg (hk ▸ fun hc => h hc.symm)]
    · rw [objRemove, if_neg hk, JsonObj.find, JsonObj.find, objRemove_find t key h]

theorem keys_update_refsObj : ∀ (o : JsonObj) (n : String),
    (update_refsObj o n).keys = o.keys
  | .nil, _ => rfl
  | .cons k v t, n => by
    by_cases hc : k = "$ref" ∧ v.isStr = true
    · rw [update_refsObj, if_pos hc, JsonObj.keys, JsonObj.keys, keys_update_refsObj t n]
    · rw [update_refsObj, if_neg hc, JsonObj.keys, JsonObj.keys, keys_update_refsObj t n]

theorem dictInsert_keys_self (acc : List (String × Json)) (k : String) (v : Json) :
    k ∈ (dictInsert acc k v).map Prod.fst := by
  induction acc with
  | nil => simp [dictInsert]
  | cons p t ih =>
    obtain ⟨k', v'⟩ := p
    by_cases h : k' = k
    · rw [dictInsert, if_pos h]
      simp [h]
    · rw [dictInsert, if_neg h]
      simpa using Or.inr ih

theorem dictInsert_keys_mono (acc : List (String × Json)) (k k' : String) (v : Json)
    (h : k' ∈ acc.map Prod.fst) : k' ∈ (dictInsert acc k v).map Prod.fst := by
  induction acc with
  | nil => simp at h
  | cons p t ih =>
    obtain ⟨k₀, v₀⟩ := p
    by_cases hk : k₀ = k
    · rw [dictInsert, if_pos hk]
      simpa using h
    · rw [dictInsert, if_neg hk]
      simp only [List.map_cons, List.mem_cons] at h ⊢
      rcases h with h | h
      · exact Or.inl h
      · exact Or.inr (ih h)

theorem foldl_dictInsert_keys_mono :
    ∀ (l acc : List (String × Json)) (k : String), k ∈ acc.map Prod.fst →
      k ∈ (l.foldl (fun acc p => dictInsert acc p.1 p.2) acc).map Prod.fst := by
  intro l
  induction l with
  | nil => intro acc k h; simpa using h
  | cons p t ih =>
    intro acc k h
    rw [List.foldl_cons]
    exact ih _ k (dictInsert_keys_mono acc p.1 k p.2 h)

theorem foldl_dictInsert_keys_of_mem :
    ∀ (l acc : List (String × Json)) (k : String) (v : Json), (k, v) ∈ l →
      k ∈ (l.foldl (fun acc p => dictInsert acc p.1 p.2) acc).map Prod.fst := by
  intro l
  induction l with
  | nil => intro acc k v h; simp at h
  | cons p t ih =>
    intro acc k v h
    rw [List.foldl_cons]
    rcases List.mem_cons.mp h with rfl | h2
    · exact foldl_dictInsert_keys_mono t _ k (dictInsert_keys_self acc k v)
    · exact ih _ k v h2

theorem mergedPairs_intro :
    ∀ (schemas : List (String × Json)) (n : String) (doc : Json) (d : String) (v : Json),
      (n, doc) ∈ schemas → (d, v) ∈ defsOf doc → (renKey n d, v) ∈ mergedPairs schemas := by
  intro schemas
  induction schemas with
  | nil => intro n doc d v h _; simp at h
  | cons p rest ih =>
    intro n doc d v h hd
    obtain ⟨n₀, doc₀⟩ := p
    rw [mergedPairs]
    rcases List.mem_cons.mp h with heq | h2
    · obtain ⟨rfl, rfl⟩ := Prod.mk.injEq .. ▸ heq
      exact List.mem_append_left _ (List.mem_map_of_mem _ hd)
    · exact List.mem_append_right _ (ih n doc d v h2 hd)

theorem all_definitions_key_mem (schemas : List (String × Json)) (n : String) (doc : Json)
    (d : String) (v : Json) (h : (n, doc) ∈ schemas) (hd : (d, v) ∈ defsOf doc) :
    renKey n d ∈ (all_definitions schemas).map Prod.fst :=
  foldl_dictInsert_keys_of_mem (mergedPairs schemas) [] (renKey n d) v
    (mergedPairs_intro schemas n doc d v h hd)

theorem removeFuel_nil (old : List Char) (f : Nat) : removeFuel old f [] = [] := by
  cases f <;> rfl

theorem removeFuel_succ_split (old : List Char) (f : Nat) (s a b : List Char)
    (hs : chSplitFirst old s = some (a, b)) :
    removeFuel old (f + 1) s = a ++ removeFuel old f b := by
  cases s with
  | nil => rw [chSplitFirst] at hs; cases hs
  | cons c cs => simp only [removeFuel, hs]

theorem chSplitFirst_notin (c : Char) (cs : List Char) :
    ∀ (a t : List Char), c ∉ a →
      chSplitFirst (c :: cs) (a ++ t) =
        (chSplitFirst (c :: cs) t).map (fun p => (a ++ p.1, p.2)) := by
  intro a
  induction a with
  | nil =>
    intro t _
    cases h : chSplitFirst (c :: cs) t <;> simp [h]
  | cons x xs ih =>
    intro t hc
    rw [List.cons_append, chSplitFirst, if_neg ?hpre]
    case hpre =>
      intro hcon
      have hcp := List.isPrefixOf_iff_prefix.mp hcon
      rw [List.cons_prefix_cons] at hcp
      exact hc (hcp.1 ▸ List.mem_cons_self _ _)
    rw [ih t (fun h => hc (List.mem_cons_of_mem _ h))]
    cases chSplitFirst (c :: cs) t <;> simp

theorem pyRemoveL_dotjson (nd : List Char) (hd : '.' ∉ nd) :
    pyRemoveL extD (nd ++ extD) = nd := by
  have hext : extD = '.' :: "json".data := rfl
  have hself : chSplitFirst extD (extD ++ []) = some ([], []) :=
    chSplitFirst_here extD [] '.' "json".data rfl
  rw [List.append_nil] at hself
  have hsplit : chSplitFirst extD (nd ++ extD) = some (nd, []) := by
    have h1 : chSplitFirst extD (nd ++ extD) =
        (chSplitFirst extD extD).map (fun p => (nd ++ p.1, p.2)) :=
      chSplitFirst_notin '.' "json".data nd extD hd
    rw [h1, hself]
    simp
  have hlen : (nd ++ extD).length = (nd.length + 4) + 1 := by
    simp [extD]
  unfold pyRemoveL
  rw [hlen, removeFuel_succ_split extD _ _ nd [] hsplit, removeFuel_nil, List.append_nil]

theorem rewriteRefStr_form (s n name : String)
    (hform : s.data = (n.data ++ extD) ++ (sepD ++ name.data))
    (hpre : bpmnD <+: n.data) (hdot : '.' ∉ n.data) (hhash : '#' ∉ n.data)
    (hnosep : chSplitFirst sepD name.data = none) :
    rewriteRefStr s = (⟨sepD⟩ : String) ++ renKey n name := by
  have hsepD : sepD = '#' :: "/definitions/".data := rfl
  have hnotin : '#' ∉ n.data ++ extD := by
    intro hmem
    rcases List.mem_append.mp hmem with h | h
    · exact hhash h
    · exact absurd h (by decide)
  have hsplit1 : chSplitFirst sepD s.data = some (n.data ++ extD, name.data) := by
    rw [hform, hsepD, chSplitFirst_notin '#' "/definitions/".data (n.data ++ extD) _ hnotin,
      ← hsepD, chSplitFirst_here sepD name.data '#' "/definitions/".data hsepD]
    simp
  have hp : bpmnD.isPrefixOf s.data = true := by
    rw [hform]
    exact List.isPrefixOf_iff_prefix.mpr
      ((hpre.trans (List.prefix_append _ _)).trans (List.prefix_append _ _))
  rw [rewriteRefStr, if_pos hp]
  simp only [pySplit2, hsplit1, hnosep]
  rw [pyRemoveL_dotjson n.data hdot]
  by_cases hn : n = "bpmn-process"
  · rw [if_pos (by rw [hn]), renKey, if_pos hn]
    apply strExt
    rw [strDataAppend]
  · rw [if_neg (fun hc => hn (strExt n "bpmn-process" hc))]
    apply strExt
    rw [strDataAppend, renKey, if_neg hn, strDataAppend, strDataAppend]
    have hd1 : (⟨sepD⟩ : String).data = sepD := rfl
    have hd2 : (⟨pyRemoveL bpmnD n.data⟩ : String).data = pyRemoveL bpmnD n.data := rfl
    rw [hd1, hd2]
    simp [List.append_assoc]

/-- C3 (amended): an external-form `$ref` value `<n>.json#/definitions/<name>`
occurring anywhere in the pre-rewrite combined document — the base
document with the merged definitions in place, hence also inside every
merged definition — whose `<n>` starts with `bpmn-`, contains no `.` and
no `#`, with `<name>` free of the separator, and which names a
definition `<name>` present in the source document named `<n>`, is
rewritten to the local pointer `#/definitions/<key>` with
`<key> = renKey <n> <name>`, that pointer occurs in the rewritten
document, and `<key>` exists in the final combined document's
`definitions` map: under those stem restrictions rewriting introduces no
dangling reference.  The restrictions are necessary: `c3_counterexample`
shows a dot-bearing stem inside the claim's premise where the rewritten
pointer dangles. -/
theorem c3_no_dangling (schemas : List (String × Json)) (base : JsonObj)
    (s n name : String) (doc : Json)
    (hbase : alFind schemas "bpmn-process" = some (Json.obj base))
    (hs : s ∈ refVals (combinedPre schemas))
    (hform : s.data = (n.data ++ extD) ++ (sepD ++ name.data))
    (hpre : bpmnD <+: n.data)
    (hdot : '.' ∉ n.data)
    (hhash : '#' ∉ n.data)
    (hnosep : chSplitFirst sepD name.data = none)
    (hdoc : (n, doc) ∈ schemas)
    (hname : ∃ v : Json, (name, v) ∈ defsOf doc) :
    rewriteRefStr s = (⟨sepD⟩ : String) ++ renKey n name ∧
      renKey n name ∈ combinedDefKeys (combineResult schemas) ∧
      (⟨sepD⟩ : String) ++ renKey n name ∈
        refVals (update_refs (combinedPre schemas) "bpmn-process") := by
  have h1 := rewriteRefStr_form s n name hform hpre hdot hhash hnosep
  refine ⟨h1, ?_, ?_⟩
  · obtain ⟨v, hv⟩ := hname
    have hkey := all_definitions_key_mem schemas n doc name v hdoc hv
    have hpre' : combinedPre schemas =
        Json.obj (objInsert base "definitions"
          (Json.obj (JsonObj.ofList (all_definitions schemas)))) := by
      rw [combinedPre, hbase]
    have hfind : (objRemove (update_refsObj (objInsert base "definitions"
          (Json.obj (JsonObj.ofList (all_definitions schemas)))) "bpmn-process") "$id").find
          "definitions" =
        some (Json.obj (update_refsObj (JsonObj.ofList (all_definitions schemas))
          "bpmn-process")) := by
      rw [objRemove_find _ _ (by decide), update_refsObj_find _ _ _ (by decide),
        objInsert_find_self]
      rfl
    rw [combineResult, hpre']
    simp only [update_refs, removeTopId, combinedDefKeys, Json.get, hfind]
    rw [keys_update_refsObj, keys_ofList]
    exact hkey
  · rw [refVals_update_refs (combinedPre schemas) "bpmn-process", ← h1]
    exact List.mem_map_of_mem rewriteRefStr hs

theorem c3_no_dangling_witness :
    rewriteRefStr "bpmn-common.json#/definitions/Id" =
        (⟨sepD⟩ : String) ++ renKey "bpmn-common" "Id" ∧
      renKey "bpmn-common" "Id" ∈ combinedDefKeys (combineResult
        [("bpmn-process", Json.obj (JsonObj.ofList [("definitions",
            jobj [("Process", jobj [("$ref", Json.str "bpmn-common.json#/definitions/Id")])])])),
         ("bpmn-common", jobj [("definitions", jobj [("Id", Json.null)])])]) ∧
      (⟨sepD⟩ : String) ++ renKey "bpmn-common" "Id" ∈
        refVals (update_refs (combinedPre
          [("bpmn-process", Json.obj (JsonObj.ofList [("definitions",
              jobj [("Process", jobj [("$ref", Json.str "bpmn-common.json#/definitions/Id")])])])),
           ("bpmn-common", jobj [("definitions", jobj [("Id", Json.null)])])]) "bpmn-process") :=
  c3_no_dangling
    [("bpmn-process", Json.obj (JsonObj.ofList [("definitions",
        jobj [("Process", jobj [("$ref", Json.str "bpmn-common.json#/definitions/Id")])])])),
     ("bpmn-common", jobj [("definitions", jobj [("Id", Json.null)])])]
    (JsonObj.ofList [("definitions",
      jobj [("Process", jobj [("$ref", Json.str "bpmn-common.json#/definitions/Id")])])])
    "bpmn-common.json#/definitions/Id" "bpmn-common" "Id"
    (jobj [("definitions", jobj [("Id", Json.null)])])
    rfl (by decide) (by decide) ⟨"common".data, by decide⟩ (by decide) (by decide) (by decide)
    (by decide) ⟨Json.null, by decide⟩

/-- C3 counterexample: a source document stored at
`schemas/bpmn-a.json-x.json` — so named `bpmn-a.json-x` by the code's own
`Path(...).stem` — carries a definition `d`, and the base document holds
the external-form ref `bpmn-a.json-x.json#/definitions/d`, which names
that definition, placing this input squarely inside the claim's premise.
The merge keys the definition as `a.json-x_d` (prefix from the stem),
but the rewrite removes every `.json` occurrence from the ref's file
part and produces the local pointer `#/definitions/a-x_d`, whose key
does not exist in the combined document's definitions map: rewriting
introduced a dangling reference, so the claim as stated is false. -/
theorem c3_counterexample :
    pathStem "schemas/bpmn-a.json-x.json" = "bpmn-a.json-x" ∧
    "bpmn-a.json-x.json#/definitions/d" ∈ refVals (combinedPre
      [("bpmn-process", Json.obj (JsonObj.ofList [("definitions",
          jobj [("Process", jobj [("$ref", Json.str "bpmn-a.json-x.json#/definitions/d")])])])),
       ("bpmn-a.json-x", jobj [("definitions", jobj [("d", Json.null)])])]) ∧
    "d" ∈ (defsOf (jobj [("definitions", jobj [("d", Json.null)])])).map Prod.fst ∧
    refVals (combineResult
      [("bpmn-process", Json.obj (JsonObj.ofList [("definitions",
          jobj [("Process", jobj [("$ref", Json.str "bpmn-a.json-x.json#/definitions/d")])])])),
       ("bpmn-a.json-x", jobj [("definitions", jobj [("d", Json.null)])])]) =
      ["#/definitions/a-x_d"] ∧
    "a-x_d" ∉ combinedDefKeys (combineResult
      [("bpmn-process", Json.obj (JsonObj.ofList [("definitions",
          jobj [("Process", jobj [("$ref", Json.str "bpmn-a.json-x.json#/definitions/d")])])])),
       ("bpmn-a.json-x", jobj [("definitions", jobj [("d", Json.null)])])]) := by
  decide
